import Mathlib

/-!
Verification of the prioritized experience replay subsystem and the
categorical value-distribution projection of the `level_replay` repository.

The embedding translates, over exact rational arithmetic:
  * `SumTree` (`buffer.py`): levels of node arrays, `set`, `batch_set`,
    construction, and the numpy bounds-check semantics of `np.add.at`;
  * `Buffer` (`buffer.py`): the circular transition store with its
    wraparound batched write, occupancy counter, priority seeding and
    the beta annealing step of `sample`;
  * the categorical projection of `Rainbow.train` (`policy.py`):
    clamping, fractional index, the low/up boundary nudges and the
    scatter-add accumulation of probability mass;
  * the importance-weight computation of `Buffer.sample`, over the reals
    because of the real exponent `-beta`.
-/

namespace Replay

/-! ## List helpers

`addAt l i d` models the in-place numpy update `l[i] += d` (no effect when
`i` is out of range; range side conditions are carried by the lemmas).
`setSlice arr s vs` models the numpy slice assignment `arr[s : s+len(vs)] = vs`.
-/

def addAt (l : List ℚ) (i : Nat) (d : ℚ) : List ℚ :=
  l.set i (l.getD i 0 + d)

def setSlice (arr : List ℚ) (s : Nat) (vs : List ℚ) : List ℚ :=
  arr.take s ++ vs ++ arr.drop (s + vs.length)

theorem addAt_length (l : List ℚ) (i : Nat) (d : ℚ) :
    (addAt l i d).length = l.length := by
  simp [addAt]

theorem getD_eq_getElem (l : List ℚ) (i : Nat) (h : i < l.length) :
    l.getD i 0 = l[i] := by
  simp [List.getD_eq_getElem?_getD, List.getElem?_eq_getElem h]

theorem addAt_getD_self (l : List ℚ) (i : Nat) (d : ℚ) (h : i < l.length) :
    (addAt l i d).getD i 0 = l.getD i 0 + d := by
  rw [getD_eq_getElem _ _ (by simpa [addAt] using h)]
  simp [addAt, List.getElem_set_self]

theorem addAt_getD_ne (l : List ℚ) (i j : Nat) (d : ℚ) (h : j ≠ i) :
    (addAt l i d).getD j 0 = l.getD j 0 := by
  by_cases hj : j < l.length
  · rw [getD_eq_getElem _ _ (by simpa [addAt] using hj), getD_eq_getElem _ _ hj]
    simp [addAt, List.getElem_set]
    intro hij
    exact absurd hij.symm h
  · rw [List.getD_eq_getElem?_getD, List.getD_eq_getElem?_getD]
    rw [List.getElem?_eq_none (by simpa [addAt] using Nat.le_of_not_lt hj),
      List.getElem?_eq_none (Nat.le_of_not_lt hj)]

theorem addAt_sum (l : List ℚ) (i : Nat) (d : ℚ) (h : i < l.length) :
    (addAt l i d).sum = l.sum + d := by
  induction l generalizing i with
  | nil => simp at h
  | cons x xs ih =>
    cases i with
    | zero => simp [addAt]; ring
    | succ n =>
      have hn : n < xs.length := by simpa using h
      have : addAt (x :: xs) (n + 1) d = x :: addAt xs n d := by
        simp [addAt]
      rw [this]
      simp [ih n hn]
      ring

theorem setSlice_length (arr : List ℚ) (s : Nat) (vs : List ℚ)
    (h : s + vs.length ≤ arr.length) :
    (setSlice arr s vs).length = arr.length := by
  simp [setSlice]
  omega

theorem setSlice_getD_lt (arr : List ℚ) (s : Nat) (vs : List ℚ) (j : Nat)
    (hs : s ≤ arr.length) (hj : j < s) :
    (setSlice arr s vs).getD j 0 = arr.getD j 0 := by
  have htk : (arr.take s).length = s := by simp; omega
  have hlen1 : (arr.take s ++ vs).length = s + vs.length := by simp [htk]
  rw [setSlice, List.getD_eq_getElem?_getD,
    List.getElem?_append_left (by rw [hlen1]; omega),
    List.getElem?_append_left (by rw [htk]; omega),
    List.getElem?_take, if_pos hj, ← List.getD_eq_getElem?_getD]

theorem setSlice_getD_ge (arr : List ℚ) (s : Nat) (vs : List ℚ) (j : Nat)
    (hlen : s + vs.length ≤ arr.length) (hj : s + vs.length ≤ j) :
    (setSlice arr s vs).getD j 0 = arr.getD j 0 := by
  have htk : (arr.take s).length = s := by simp; omega
  have hlen1 : (arr.take s ++ vs).length = s + vs.length := by simp [htk]
  rw [setSlice, List.getD_eq_getElem?_getD,
    List.getElem?_append_right (by rw [hlen1]; omega), hlen1,
    List.getElem?_drop, ← List.getD_eq_getElem?_getD]
  congr 1
  omega

theorem setSlice_getD_in (arr : List ℚ) (s : Nat) (vs : List ℚ) (i : Nat)
    (hlen : s + vs.length ≤ arr.length) (hi : i < vs.length) :
    (setSlice arr s vs).getD (s + i) 0 = vs.getD i 0 := by
  have htk : (arr.take s).length = s := by simp; omega
  have hlen1 : (arr.take s ++ vs).length = s + vs.length := by simp [htk]
  have hidx : s + i - s = i := by omega
  rw [setSlice, List.getD_eq_getElem?_getD,
    List.getElem?_append_left (by rw [hlen1]; omega),
    List.getElem?_append_right (by rw [htk]; omega), htk, hidx,
    ← List.getD_eq_getElem?_getD]

/-! ## SumTree (`buffer.py`, class `SumTree`)

The source stores the tree as a python list `nodes` of numpy arrays,
root level first: level 0 holds one node, each next level doubles, and
construction appends `ceil(log2(max_size)) + 1` zero levels.  `set`
computes `diff = new_priority - nodes[-1][i]` and walks the reversed
level list adding `diff` while halving the index; a level with `m`
levels below it therefore receives the diff at index `i / 2^m`.
`batch_set` deduplicates the index vector (numpy `unique` keeps the
first occurrence of each index), computes all diffs up front from the
leaf level, and performs the same per-level scatter-add for all of them.
-/

structure SumTree where
  nodes : List (List ℚ)

def zeroLevels : Nat → Nat → List (List ℚ)
  | 0, _ => []
  | n + 1, sz => List.replicate sz 0 :: zeroLevels n (2 * sz)

def SumTree.make (maxSize : Nat) : SumTree :=
  ⟨zeroLevels (Nat.clog 2 maxSize + 1) 1⟩

def SumTree.leaves (t : SumTree) : List ℚ :=
  t.nodes.getLastD []

def SumTree.leafVal (t : SumTree) (i : Nat) : ℚ :=
  t.leaves.getD i 0

def SumTree.total (t : SumTree) : ℚ :=
  (t.nodes.headD []).getD 0 0

def updFrom : List (List ℚ) → Nat → ℚ → List (List ℚ)
  | [], _, _ => []
  | lvl :: rest, idx, d => addAt lvl (idx / 2 ^ rest.length) d :: updFrom rest idx d

def SumTree.set (t : SumTree) (idx : Nat) (p : ℚ) : SumTree :=
  ⟨updFrom t.nodes idx (p - t.leafVal idx)⟩

def dedupFirst : List (Nat × ℚ) → List (Nat × ℚ)
  | [] => []
  | pr :: rest => pr :: dedupFirst (rest.filter (fun q => q.1 ≠ pr.1))
termination_by l => l.length
decreasing_by
  simp only [List.length_cons]
  exact Nat.lt_succ_of_le (List.length_filter_le _ _)

def updFromB : List (List ℚ) → List (Nat × ℚ) → List (List ℚ)
  | [], _ => []
  | lvl :: rest, pds =>
      pds.foldl (fun l pd => addAt l (pd.1 / 2 ^ rest.length) pd.2) lvl :: updFromB rest pds

def SumTree.batch_set (t : SumTree) (idxPr : List (Nat × ℚ)) : SumTree :=
  ⟨updFromB t.nodes ((dedupFirst idxPr).map (fun ip => (ip.1, ip.2 - t.leafVal ip.1)))⟩

/-- `np.add.at(nodes, i, d)` raises `IndexError` when `i` is out of the
array's bounds; the leaf level is the strictest (an in-range leaf index
keeps every ancestor index in range, since the index is halved level by
level while the level size also halves).  `setChecked` is `set` together
with that runtime bounds check. -/
def SumTree.setChecked (t : SumTree) (idx : Nat) (p : ℚ) : Option SumTree :=
  if idx < t.leaves.length then some (t.set idx p) else none

theorem updFrom_length (ls : List (List ℚ)) (idx : Nat) (d : ℚ) :
    (updFrom ls idx d).length = ls.length := by
  induction ls with
  | nil => rfl
  | cons lvl rest ih => simp [updFrom, ih]

theorem getLastD_irrel (l : List (List ℚ)) (x y : List ℚ) (h : l ≠ []) :
    l.getLastD x = l.getLastD y := by
  cases l with
  | nil => exact absurd rfl h
  | cons a as => rw [List.getLastD_cons, List.getLastD_cons]

theorem updFrom_getLast (ls : List (List ℚ)) (idx : Nat) (d : ℚ) (h : ls ≠ []) :
    (updFrom ls idx d).getLastD [] = addAt (ls.getLastD []) idx d := by
  induction ls with
  | nil => exact absurd rfl h
  | cons lvl rest ih =>
    cases rest with
    | nil => simp [updFrom, addAt]
    | cons b rest2 =>
      have hne : (b :: rest2 : List (List ℚ)) ≠ [] := by simp
      have hne2 : updFrom (b :: rest2) idx d ≠ [] := by
        intro hcon
        have := updFrom_length (b :: rest2) idx d
        rw [hcon] at this
        simp at this
      rw [updFrom, List.getLastD_cons, List.getLastD_cons,
        getLastD_irrel _ _ [] hne2, getLastD_irrel _ _ [] hne, ih hne]

/-! ## The sum-tree invariant

`levelRel a b` states that level `a` is the parent level of `b`: `b` is
twice as long and every node of `a` is the sum of its two children in
`b`.  `chain ls` states `levelRel` for every consecutive pair of levels,
i.e. every internal node equals the sum of its two children.
`shapeFrom c ls` states the level sizes `c, 2c, 4c, ...`.
-/

def levelRel (a b : List ℚ) : Prop :=
  b.length = 2 * a.length ∧
  ∀ j < a.length, a.getD j 0 = b.getD (2 * j) 0 + b.getD (2 * j + 1) 0

def chain : List (List ℚ) → Prop
  | a :: b :: rest => levelRel a b ∧ chain (b :: rest)
  | _ => True

def shapeFrom : Nat → List (List ℚ) → Prop
  | _, [] => True
  | c, lvl :: rest => lvl.length = c ∧ shapeFrom (2 * c) rest

theorem chain_cons (a b : List ℚ) (rest : List (List ℚ)) :
    chain (a :: b :: rest) ↔ levelRel a b ∧ chain (b :: rest) := Iff.rfl

theorem levelRel_addAt (a b : List ℚ) (jb : Nat) (d : ℚ)
    (h : levelRel a b) (hjb : jb < b.length) :
    levelRel (addAt a (jb / 2) d) (addAt b jb d) := by
  obtain ⟨hlen, hsum⟩ := h
  constructor
  · simp [addAt_length, hlen]
  · intro j hj
    rw [addAt_length] at hj
    by_cases hja : j = jb / 2
    · subst hja
      have hja2 : jb / 2 < a.length := by omega
      rw [addAt_getD_self a _ d hja2]
      have hbase := hsum (jb / 2) hja2
      have hq2 : jb = 2 * (jb / 2) ∨ jb = 2 * (jb / 2) + 1 := by omega
      rcases hq2 with hcase | hcase
      · rw [← hcase, addAt_getD_self b jb d hjb,
          addAt_getD_ne b jb (jb + 1) d (by omega)]
        rw [← hcase] at hbase
        linarith
      · rw [← hcase, addAt_getD_self b jb d hjb,
          addAt_getD_ne b jb (2 * (jb / 2)) d (by omega)]
        rw [← hcase] at hbase
        linarith
    · rw [addAt_getD_ne a _ _ d hja,
        addAt_getD_ne b jb (2 * j) d (by omega),
        addAt_getD_ne b jb (2 * j + 1) d (by omega)]
      exact hsum j hj

theorem shapeFrom_updFrom (ls : List (List ℚ)) (c idx : Nat) (d : ℚ)
    (h : shapeFrom c ls) : shapeFrom c (updFrom ls idx d) := by
  induction ls generalizing c with
  | nil => simp [updFrom, shapeFrom]
  | cons lvl rest ih =>
    obtain ⟨h1, h2⟩ := h
    exact ⟨by simp [addAt_length, h1], ih _ h2⟩

theorem chain_updFrom : ∀ (ls : List (List ℚ)) (c idx : Nat) (d : ℚ),
    shapeFrom c ls → chain ls → idx < c * 2 ^ (ls.length - 1) →
    chain (updFrom ls idx d)
  | [], _, _, _, _, _, _ => trivial
  | [a], c, idx, d, _, _, _ => trivial
  | a :: b :: rest2, c, idx, d, hs, hc, hidx => by
    obtain ⟨ha, hb, hrest⟩ : a.length = c ∧ b.length = 2 * c ∧ shapeFrom (4 * c) rest2 := by
      obtain ⟨h1, h2⟩ := hs
      obtain ⟨h3, h4⟩ := h2
      refine ⟨h1, h3, ?_⟩
      have : 2 * (2 * c) = 4 * c := by ring
      rw [← this]
      exact h4
    obtain ⟨hrel, hchain⟩ := (chain_cons a b rest2).mp hc
    have hlen2 : (a :: b :: rest2 : List (List ℚ)).length - 1 = rest2.length + 1 := by simp
    have hjb : idx / 2 ^ rest2.length < b.length := by
      rw [hb, Nat.div_lt_iff_lt_mul (Nat.pos_pow_of_pos _ (by omega))]
      rw [hlen2] at hidx
      calc idx < c * 2 ^ (rest2.length + 1) := hidx
        _ = 2 * c * 2 ^ rest2.length := by ring
    have hdiv : idx / 2 ^ (rest2.length + 1) = idx / 2 ^ rest2.length / 2 := by
      rw [Nat.div_div_eq_div_mul, pow_succ]
    have hbound2 : idx < 2 * c * 2 ^ ((b :: rest2 : List (List ℚ)).length - 1) := by
      rw [hlen2] at hidx
      simp only [List.length_cons, Nat.add_sub_cancel]
      calc idx < c * 2 ^ (rest2.length + 1) := hidx
        _ = 2 * c * 2 ^ rest2.length := by ring
    have htail : chain (updFrom (b :: rest2) idx d) :=
      chain_updFrom (b :: rest2) (2 * c) idx d ⟨hb, by
        have : 2 * (2 * c) = 4 * c := by ring
        rw [this]
        exact hrest⟩ hchain hbound2
    show chain (addAt a (idx / 2 ^ (b :: rest2 : List (List ℚ)).length) d ::
      addAt b (idx / 2 ^ rest2.length) d :: updFrom rest2 idx d)
    rw [chain_cons]
    constructor
    · have : (b :: rest2 : List (List ℚ)).length = rest2.length + 1 := by simp
      rw [this, hdiv]
      exact levelRel_addAt a b _ d hrel hjb
    · exact htail

theorem updFromB_nil (ls : List (List ℚ)) : updFromB ls [] = ls := by
  induction ls with
  | nil => rfl
  | cons lvl rest ih => simp [updFromB, ih]

theorem updFromB_cons (ls : List (List ℚ)) (pd : Nat × ℚ) (pds : List (Nat × ℚ)) :
    updFromB ls (pd :: pds) = updFromB (updFrom ls pd.1 pd.2) pds := by
  induction ls with
  | nil => rfl
  | cons lvl rest ih =>
    show (pd :: pds).foldl (fun l q => addAt l (q.1 / 2 ^ rest.length) q.2) lvl ::
        updFromB rest (pd :: pds) = _
    rw [List.foldl_cons, ih]
    show _ = updFromB (addAt lvl (pd.1 / 2 ^ rest.length) pd.2 :: updFrom rest pd.1 pd.2) pds
    simp only [updFromB, updFrom_length]

theorem updFromB_eq_foldl (ls : List (List ℚ)) (pds : List (Nat × ℚ)) :
    updFromB ls pds = pds.foldl (fun l pd => updFrom l pd.1 pd.2) ls := by
  induction pds generalizing ls with
  | nil => simp [updFromB_nil]
  | cons pd pds ih => rw [updFromB_cons, List.foldl_cons, ih]

theorem dedupFirst_mem (l : List (Nat × ℚ)) (x : Nat × ℚ) (h : x ∈ dedupFirst l) :
    x ∈ l := by
  induction l using dedupFirst.induct with
  | case1 => simp [dedupFirst] at h
  | case2 pr rest ih =>
    rw [dedupFirst] at h
    rcases List.mem_cons.mp h with h1 | h2
    · simp [h1]
    · exact List.mem_cons_of_mem _ (List.mem_of_mem_filter (ih h2))

theorem replicate_getD (n j : Nat) : (List.replicate n (0:ℚ)).getD j 0 = 0 := by
  rw [List.getD_eq_getElem?_getD]
  by_cases hj : j < n
  · rw [List.getElem?_eq_getElem (by simpa using hj)]
    simp
  · rw [List.getElem?_eq_none (by simpa using Nat.le_of_not_lt hj)]
    rfl

theorem zeroLevels_length (n c : Nat) : (zeroLevels n c).length = n := by
  induction n generalizing c with
  | zero => rfl
  | succ m ih => simp [zeroLevels, ih]

theorem zeroLevels_shape (n c : Nat) : shapeFrom c (zeroLevels n c) := by
  induction n generalizing c with
  | zero => trivial
  | succ m ih => exact ⟨List.length_replicate _ _, ih (2 * c)⟩

theorem zeroLevels_chain (n c : Nat) : chain (zeroLevels n c) := by
  induction n generalizing c with
  | zero => trivial
  | succ m ih =>
    cases m with
    | zero => trivial
    | succ k =>
      show chain (List.replicate c 0 :: List.replicate (2 * c) 0 :: zeroLevels k (2 * (2 * c)))
      rw [chain_cons]
      refine ⟨⟨by simp, ?_⟩, ih (2 * c)⟩
      intro j hj
      rw [replicate_getD, replicate_getD, replicate_getD]
      ring

theorem levelRel_sum : ∀ (a b : List ℚ), levelRel a b → a.sum = b.sum
  | [], b, ⟨hlen, _⟩ => by
    have : b = [] := List.eq_nil_of_length_eq_zero (by simpa using hlen)
    simp [this]
  | x :: xs, b, ⟨hlen, hsum⟩ => by
    match b, hlen with
    | y1 :: y2 :: ys, hlen => ?_
    have hys : ys.length = 2 * xs.length := by
      simp at hlen
      omega
    have hx : x = y1 + y2 := by
      have := hsum 0 (by simp)
      simpa using this
    have hrec : xs.sum = ys.sum := by
      apply levelRel_sum xs ys
      refine ⟨hys, ?_⟩
      intro j hj
      have := hsum (j + 1) (by simpa using hj)
      have e1 : (x :: xs).getD (j + 1) 0 = xs.getD j 0 := List.getD_cons_succ
      have e2 : (y1 :: y2 :: ys).getD (2 * (j + 1)) 0 = ys.getD (2 * j) 0 := by
        have : 2 * (j + 1) = 2 * j + 1 + 1 := by ring
        rw [this, List.getD_cons_succ, List.getD_cons_succ]
      have e3 : (y1 :: y2 :: ys).getD (2 * (j + 1) + 1) 0 = ys.getD (2 * j + 1) 0 := by
        have : 2 * (j + 1) + 1 = 2 * j + 1 + 1 + 1 := by ring
        rw [this, List.getD_cons_succ, List.getD_cons_succ]
      rw [e1, e2, e3] at this
      exact this
    simp [hx, hrec]
    ring

theorem chain_head_last_sum : ∀ (ls : List (List ℚ)), chain ls →
    (ls.headD []).sum = (ls.getLastD []).sum
  | [], _ => rfl
  | [a], _ => by simp
  | a :: b :: rest, hc => by
    obtain ⟨hrel, hchain⟩ := (chain_cons a b rest).mp hc
    have ih := chain_head_last_sum (b :: rest) hchain
    have h1 : ((a :: b :: rest : List (List ℚ)).headD []).sum = a.sum := rfl
    have h2 : (a :: b :: rest : List (List ℚ)).getLastD [] =
        (b :: rest : List (List ℚ)).getLastD [] := by
      rw [List.getLastD_cons, getLastD_irrel _ _ [] (by simp)]
    rw [h1, h2, ← ih, levelRel_sum a b hrel]
    rfl

/-! ## Sequences of tree mutations -/

inductive SumOp where
  | single : Nat → ℚ → SumOp
  | batched : List (Nat × ℚ) → SumOp

def SumOp.apply (t : SumTree) : SumOp → SumTree
  | .single i p => t.set i p
  | .batched ps => t.batch_set ps

def SumOp.inRange (m : Nat) : SumOp → Prop
  | .single i _ => i < m
  | .batched ps => ∀ pr ∈ ps, pr.1 < m

instance (m : Nat) (op : SumOp) : Decidable (op.inRange m) :=
  match op with
  | .single i _ => inferInstanceAs (Decidable (i < m))
  | .batched ps => inferInstanceAs (Decidable (∀ pr ∈ ps, pr.1 < m))

def treeInv (m : Nat) (t : SumTree) : Prop :=
  shapeFrom 1 t.nodes ∧ chain t.nodes ∧ t.nodes.length = Nat.clog 2 m + 1

theorem treeInv_make (m : Nat) : treeInv m (SumTree.make m) :=
  ⟨zeroLevels_shape _ 1, zeroLevels_chain _ 1, zeroLevels_length _ 1⟩

theorem treeInv_updFrom (m idx : Nat) (d : ℚ) (ls : List (List ℚ))
    (h : shapeFrom 1 ls ∧ chain ls ∧ ls.length = Nat.clog 2 m + 1)
    (hidx : idx < m) :
    shapeFrom 1 (updFrom ls idx d) ∧ chain (updFrom ls idx d) ∧
      (updFrom ls idx d).length = Nat.clog 2 m + 1 := by
  obtain ⟨h1, h2, h3⟩ := h
  have hb : idx < 1 * 2 ^ (ls.length - 1) := by
    rw [one_mul, h3, Nat.add_sub_cancel]
    exact lt_of_lt_of_le hidx (Nat.le_pow_clog (by omega) m)
  exact ⟨shapeFrom_updFrom ls 1 idx d h1, chain_updFrom ls 1 idx d h1 h2 hb,
    by rw [updFrom_length]; exact h3⟩

theorem treeInv_set (m : Nat) (t : SumTree) (idx : Nat) (p : ℚ)
    (h : treeInv m t) (hidx : idx < m) : treeInv m (t.set idx p) :=
  treeInv_updFrom m idx _ t.nodes h hidx

theorem treeInv_foldl_updFrom (m : Nat) (pds : List (Nat × ℚ)) :
    ∀ ls, shapeFrom 1 ls → chain ls → ls.length = Nat.clog 2 m + 1 →
    (∀ pd ∈ pds, pd.1 < m) →
    shapeFrom 1 (pds.foldl (fun l pd => updFrom l pd.1 pd.2) ls) ∧
    chain (pds.foldl (fun l pd => updFrom l pd.1 pd.2) ls) ∧
    (pds.foldl (fun l pd => updFrom l pd.1 pd.2) ls).length = Nat.clog 2 m + 1 := by
  induction pds with
  | nil =>
    intro ls h1 h2 h3 _
    exact ⟨h1, h2, h3⟩
  | cons pd pds ih =>
    intro ls h1 h2 h3 h4
    rw [List.foldl_cons]
    obtain ⟨g1, g2, g3⟩ :=
      treeInv_updFrom m pd.1 pd.2 ls ⟨h1, h2, h3⟩ (h4 pd (List.mem_cons_self _ _))
    exact ih _ g1 g2 g3 (fun q hq => h4 q (List.mem_cons_of_mem _ hq))

theorem treeInv_batch_set (m : Nat) (t : SumTree) (ps : List (Nat × ℚ))
    (h : treeInv m t) (hps : ∀ pr ∈ ps, pr.1 < m) :
    treeInv m (t.batch_set ps) := by
  obtain ⟨h1, h2, h3⟩ := h
  show treeInv m ⟨updFromB t.nodes _⟩
  rw [treeInv]
  simp only [updFromB_eq_foldl]
  apply treeInv_foldl_updFrom m _ t.nodes h1 h2 h3
  intro pd hpd
  rcases List.mem_map.mp hpd with ⟨ip, hip, hmap⟩
  have : pd.1 = ip.1 := by rw [← hmap]
  rw [this]
  exact hps ip (dedupFirst_mem _ ip hip)

theorem treeInv_apply (m : Nat) (t : SumTree) (op : SumOp)
    (h : treeInv m t) (hop : op.inRange m) : treeInv m (op.apply t) := by
  cases op with
  | single i p => exact treeInv_set m t i p h hop
  | batched ps => exact treeInv_batch_set m t ps h hop

theorem treeInv_foldl_ops (m : Nat) (ops : List SumOp) :
    ∀ t, treeInv m t → (∀ op ∈ ops, op.inRange m) →
    treeInv m (ops.foldl SumOp.apply t) := by
  induction ops with
  | nil => intro t h _; exact h
  | cons op ops ih =>
    intro t h hops
    rw [List.foldl_cons]
    exact ih _ (treeInv_apply m t op h (hops op (List.mem_cons_self _ _)))
      (fun q hq => hops q (List.mem_cons_of_mem _ hq))

theorem length_one_getD_sum (l : List ℚ) (h : l.length = 1) : l.getD 0 0 = l.sum := by
  match l, h with
  | [x], _ => simp

/-- C4: starting from the all-zero tree produced by the `SumTree`
constructor, after every finite sequence of `set` and `batch_set` calls
with in-range indices, every internal node equals the sum of its two
children (the `chain` predicate over the level list) and the root
(`total`) equals the sum of all leaves. -/
theorem sumTree_invariant_after_ops (m : Nat) (ops : List SumOp)
    (_hm : 1 ≤ m) (hops : ∀ op ∈ ops, op.inRange m) :
    chain (ops.foldl SumOp.apply (SumTree.make m)).nodes ∧
    (ops.foldl SumOp.apply (SumTree.make m)).total =
      (ops.foldl SumOp.apply (SumTree.make m)).leaves.sum := by
  obtain ⟨h1, h2, h3⟩ := treeInv_foldl_ops m ops (SumTree.make m) (treeInv_make m) hops
  refine ⟨h2, ?_⟩
  have hhead : ((ops.foldl SumOp.apply (SumTree.make m)).nodes.headD []).length = 1 := by
    match hnodes : (ops.foldl SumOp.apply (SumTree.make m)).nodes, h3 with
    | lvl :: rest, _ =>
      rw [hnodes] at h1
      exact h1.1
  rw [SumTree.total, SumTree.leaves, length_one_getD_sum _ hhead]
  exact chain_head_last_sum _ h2

/-- Witness for C4 at a concrete tree of capacity 3 with one `set` and
one deduplicating `batch_set`. -/
theorem sumTree_invariant_after_ops_witness :
    chain (([SumOp.single 1 5, SumOp.batched [(0, 2), (2, 7), (0, 9)]]).foldl
      SumOp.apply (SumTree.make 3)).nodes ∧
    (([SumOp.single 1 5, SumOp.batched [(0, 2), (2, 7), (0, 9)]]).foldl
      SumOp.apply (SumTree.make 3)).total =
      (([SumOp.single 1 5, SumOp.batched [(0, 2), (2, 7), (0, 9)]]).foldl
      SumOp.apply (SumTree.make 3)).leaves.sum :=
  sumTree_invariant_after_ops 3 _ (by decide) (by decide)

theorem set_leaves (t : SumTree) (idx : Nat) (p : ℚ) (hne : t.nodes ≠ []) :
    (t.set idx p).leaves = addAt t.leaves idx (p - t.leafVal idx) := by
  rw [SumTree.set, SumTree.leaves]
  exact updFrom_getLast t.nodes idx _ hne

theorem set_leafVal_self (t : SumTree) (idx : Nat) (p : ℚ)
    (hne : t.nodes ≠ []) (hidx : idx < t.leaves.length) :
    (t.set idx p).leafVal idx = p := by
  rw [SumTree.leafVal, set_leaves t idx p hne, addAt_getD_self _ _ _ hidx,
    SumTree.leafVal]
  ring

theorem set_leafVal_ne (t : SumTree) (idx j : Nat) (p : ℚ)
    (hne : t.nodes ≠ []) (h : j ≠ idx) :
    (t.set idx p).leafVal j = t.leafVal j := by
  rw [SumTree.leafVal, set_leaves t idx p hne, addAt_getD_ne _ _ _ _ h,
    SumTree.leafVal]

theorem zeroLevels_getLast_length (n c : Nat) :
    ((zeroLevels (n + 1) c).getLastD []).length = c * 2 ^ n := by
  induction n generalizing c with
  | zero => simp [zeroLevels]
  | succ k ih =>
    have h1 : zeroLevels (k + 2) c =
        List.replicate c 0 :: zeroLevels (k + 1) (2 * c) := rfl
    have hne : zeroLevels (k + 1) (2 * c) ≠ [] := by
      intro hcon
      have := zeroLevels_length (k + 1) (2 * c)
      rw [hcon] at this
      simp at this
    rw [h1, List.getLastD_cons, getLastD_irrel _ _ [] hne, ih (2 * c)]
    ring

theorem make_leaves_length (m : Nat) :
    (SumTree.make m).leaves.length = 2 ^ Nat.clog 2 m := by
  rw [SumTree.make, SumTree.leaves]
  show ((zeroLevels (Nat.clog 2 m + 1) 1).getLastD []).length = _
  rw [zeroLevels_getLast_length, one_mul]

/-! ## Buffer (`buffer.py`, class `Buffer`)

One flat structure mirrors the python object: the six parallel storage
arrays and cursor state inherited from `AbstractBuffer`, plus the
prioritization state.  `cyclicWrite` is the slice-assignment pattern
that `Buffer.add` repeats for each storage array: when the batch of `k`
rows starting at `ptr` overruns the capacity it writes the first
`k - end` rows (with `end = (ptr + k) % max_size`) to `arr[ptr:]` and
the remaining rows to `arr[:end]`, otherwise one contiguous write at
`ptr`.  `add` sets the leaf at the old `ptr` to `max_priority` when
prioritized, then advances `ptr` to `end` and `size` by one (the source
increments the occupancy by `1` per call, whatever the batch size).
-/

def cyclicWrite (cap ptr k : Nat) (arr vals : List ℚ) : List ℚ :=
  if ptr + k > cap then
    setSlice (setSlice arr ptr (vals.take (k - (ptr + k) % cap))) 0
      (vals.drop (k - (ptr + k) % cap))
  else
    setSlice arr ptr vals

structure Buffer where
  max_size : Nat
  ptr : Nat
  size : Nat
  state : List ℚ
  action : List ℚ
  next_state : List ℚ
  reward : List ℚ
  not_done : List ℚ
  seeds : List ℚ
  prioritized : Bool
  tree : SumTree
  max_priority : ℚ
  beta : ℚ

def Buffer.add (b : Buffer) (st ac ns rw dn sd : List ℚ) : Buffer :=
  let k := st.length
  { b with
    state := cyclicWrite b.max_size b.ptr k b.state st,
    action := cyclicWrite b.max_size b.ptr k b.action ac,
    next_state := cyclicWrite b.max_size b.ptr k b.next_state ns,
    reward := cyclicWrite b.max_size b.ptr k b.reward rw,
    not_done := cyclicWrite b.max_size b.ptr k b.not_done (dn.map (fun d => 1 - d)),
    seeds := cyclicWrite b.max_size b.ptr k b.seeds sd,
    tree := if b.prioritized then b.tree.set b.ptr b.max_priority else b.tree,
    ptr := (b.ptr + k) % b.max_size,
    size := min (b.size + 1) b.max_size }

/-- The per-call beta annealing of `Buffer.sample` (`buffer.py` line 121):
when prioritized, `beta = min(beta + inc, 1)`; the source hard-codes
`inc = 2e-7`. -/
def Buffer.sampleBetaStep (inc : ℚ) (b : Buffer) : Buffer :=
  if b.prioritized then { b with beta := min (b.beta + inc) 1 } else b

theorem take_getD (l : List ℚ) (n i : Nat) (h : i < n) :
    (l.take n).getD i 0 = l.getD i 0 := by
  rw [List.getD_eq_getElem?_getD, List.getElem?_take, if_pos h,
    ← List.getD_eq_getElem?_getD]

theorem drop_getD (l : List ℚ) (n i : Nat) :
    (l.drop n).getD i 0 = l.getD (n + i) 0 := by
  rw [List.getD_eq_getElem?_getD, List.getElem?_drop, ← List.getD_eq_getElem?_getD]

theorem cyclic_mod (cap ptr j : Nat) (hp : ptr < cap) (hj : j < cap) :
    (j + cap - ptr) % cap = if ptr ≤ j then j - ptr else j + cap - ptr := by
  by_cases h : ptr ≤ j
  · rw [if_pos h]
    have he : j + cap - ptr = (j - ptr) + cap := by omega
    rw [he, Nat.add_mod_right]
    exact Nat.mod_eq_of_lt (by omega)
  · rw [if_neg h]
    exact Nat.mod_eq_of_lt (by omega)

theorem wrap_end (cap ptr k : Nat) (hp : ptr < cap) (hk : k ≤ cap)
    (hw : ptr + k > cap) : (ptr + k) % cap = ptr + k - cap := by
  rw [Nat.mod_eq_sub_mod (by omega)]
  exact Nat.mod_eq_of_lt (by omega)

theorem cyclicWrite_getD_outside (cap ptr k : Nat) (arr vals : List ℚ) (j : Nat)
    (hp : ptr < cap) (hk : k ≤ cap) (ha : arr.length = cap) (hv : vals.length = k)
    (hj : j < cap) (hout : ¬ (j + cap - ptr) % cap < k) :
    (cyclicWrite cap ptr k arr vals).getD j 0 = arr.getD j 0 := by
  rw [cyclicWrite]
  have hmod := cyclic_mod cap ptr j hp hj
  by_cases hw : ptr + k > cap
  · rw [if_pos hw, wrap_end cap ptr k hp hk hw]
    by_cases hle : ptr ≤ j
    · exfalso
      rw [hmod, if_pos hle] at hout
      omega
    · have hj2 : j < ptr := by omega
      rw [hmod, if_neg hle] at hout
      have hlen_take : (vals.take (k - (ptr + k - cap))).length = cap - ptr := by
        simp [hv]
        omega
      have hlen_inner :
          (setSlice arr ptr (vals.take (k - (ptr + k - cap)))).length = cap := by
        rw [setSlice_length _ _ _ (by rw [hlen_take]; omega)]
        exact ha
      have hlen_drop : (vals.drop (k - (ptr + k - cap))).length = ptr + k - cap := by
        simp [hv]
        omega
      rw [setSlice_getD_ge _ 0 _ j (by rw [hlen_drop, hlen_inner]; omega)
        (by rw [hlen_drop]; omega)]
      rw [setSlice_getD_lt arr ptr _ j (by omega) hj2]
  · rw [if_neg hw]
    by_cases hle : ptr ≤ j
    · rw [hmod, if_pos hle] at hout
      rw [setSlice_getD_ge arr ptr vals j (by rw [hv]; omega) (by rw [hv]; omega)]
    · rw [setSlice_getD_lt arr ptr vals j (by omega) (by omega)]

theorem cyclicWrite_getD_tail (cap ptr k : Nat) (arr vals : List ℚ) (i : Nat)
    (hp : ptr < cap) (hk : k ≤ cap) (ha : arr.length = cap) (hv : vals.length = k)
    (hw : ptr + k > cap) (hi : i < cap - ptr) :
    (cyclicWrite cap ptr k arr vals).getD (ptr + i) 0 = vals.getD i 0 := by
  rw [cyclicWrite, if_pos hw, wrap_end cap ptr k hp hk hw]
  have hlen_take : (vals.take (k - (ptr + k - cap))).length = cap - ptr := by
    simp [hv]
    omega
  have hlen_inner :
      (setSlice arr ptr (vals.take (k - (ptr + k - cap)))).length = cap := by
    rw [setSlice_length _ _ _ (by rw [hlen_take]; omega)]
    exact ha
  have hlen_drop : (vals.drop (k - (ptr + k - cap))).length = ptr + k - cap := by
    simp [hv]
    omega
  rw [setSlice_getD_ge _ 0 _ (ptr + i) (by rw [hlen_drop, hlen_inner]; omega)
    (by rw [hlen_drop]; omega)]
  rw [setSlice_getD_in arr ptr _ i (by rw [hlen_take]; omega) (by rw [hlen_take]; omega)]
  exact take_getD vals _ i (by omega)

theorem cyclicWrite_getD_head (cap ptr k : Nat) (arr vals : List ℚ) (i : Nat)
    (hp : ptr < cap) (hk : k ≤ cap) (ha : arr.length = cap) (hv : vals.length = k)
    (hw : ptr + k > cap) (hi : i < ptr + k - cap) :
    (cyclicWrite cap ptr k arr vals).getD i 0 = vals.getD (cap - ptr + i) 0 := by
  rw [cyclicWrite, if_pos hw, wrap_end cap ptr k hp hk hw]
  have hlen_take : (vals.take (k - (ptr + k - cap))).length = cap - ptr := by
    simp [hv]
    omega
  have hlen_inner :
      (setSlice arr ptr (vals.take (k - (ptr + k - cap)))).length = cap := by
    rw [setSlice_length _ _ _ (by rw [hlen_take]; omega)]
    exact ha
  have hlen_drop : (vals.drop (k - (ptr + k - cap))).length = ptr + k - cap := by
    simp [hv]
    omega
  have h0 := setSlice_getD_in (setSlice arr ptr (vals.take (k - (ptr + k - cap)))) 0
    (vals.drop (k - (ptr + k - cap))) i (by rw [hlen_drop, hlen_inner]; omega)
    (by rw [hlen_drop]; omega)
  rw [Nat.zero_add] at h0
  rw [h0, drop_getD]
  congr 1
  omega

theorem cyclicWrite_getD_nowrap (cap ptr k : Nat) (arr vals : List ℚ) (i : Nat)
    (_hp : ptr < cap) (ha : arr.length = cap) (hv : vals.length = k)
    (hw : ¬ ptr + k > cap) (hi : i < k) :
    (cyclicWrite cap ptr k arr vals).getD (ptr + i) 0 = vals.getD i 0 := by
  rw [cyclicWrite, if_neg hw]
  exact setSlice_getD_in arr ptr vals i (by omega) (by omega)

theorem map_one_sub_getD (dn : List ℚ) (i : Nat) (hi : i < dn.length) :
    (dn.map (fun d => 1 - d)).getD i 0 = 1 - dn.getD i 0 := by
  rw [getD_eq_getElem _ _ (by simpa using hi), getD_eq_getElem _ _ hi, List.getElem_map]

/-- C10: an `add` of a batch of `k` transitions (`1 ≤ k ≤ capacity`)
leaves every storage slot outside the cyclic index range
`[write_ptr, write_ptr + k) mod capacity` unchanged in all six fields. -/
theorem add_frame_outside (b : Buffer) (st ac ns rw dn sd : List ℚ) (j : Nat)
    (hp : b.ptr < b.max_size) (_hk1 : 1 ≤ st.length) (hk2 : st.length ≤ b.max_size)
    (hs : b.state.length = b.max_size) (hac : b.action.length = b.max_size)
    (hns : b.next_state.length = b.max_size) (hrw : b.reward.length = b.max_size)
    (hnd : b.not_done.length = b.max_size) (hsd : b.seeds.length = b.max_size)
    (lac : ac.length = st.length) (lns : ns.length = st.length)
    (lrw : rw.length = st.length) (ldn : dn.length = st.length)
    (lsd : sd.length = st.length) (hj : j < b.max_size)
    (hout : ¬ (j + b.max_size - b.ptr) % b.max_size < st.length) :
    (b.add st ac ns rw dn sd).state.getD j 0 = b.state.getD j 0 ∧
    (b.add st ac ns rw dn sd).action.getD j 0 = b.action.getD j 0 ∧
    (b.add st ac ns rw dn sd).next_state.getD j 0 = b.next_state.getD j 0 ∧
    (b.add st ac ns rw dn sd).reward.getD j 0 = b.reward.getD j 0 ∧
    (b.add st ac ns rw dn sd).not_done.getD j 0 = b.not_done.getD j 0 ∧
    (b.add st ac ns rw dn sd).seeds.getD j 0 = b.seeds.getD j 0 := by
  refine ⟨?_, ?_, ?_, ?_, ?_, ?_⟩
  · exact cyclicWrite_getD_outside _ _ _ _ _ j hp hk2 hs rfl hj hout
  · exact cyclicWrite_getD_outside _ _ _ _ _ j hp hk2 hac lac hj hout
  · exact cyclicWrite_getD_outside _ _ _ _ _ j hp hk2 hns lns hj hout
  · exact cyclicWrite_getD_outside _ _ _ _ _ j hp hk2 hrw lrw hj hout
  · exact cyclicWrite_getD_outside _ _ _ _ _ j hp hk2 hnd (by simpa using ldn) hj hout
  · exact cyclicWrite_getD_outside _ _ _ _ _ j hp hk2 hsd lsd hj hout

/-- Witness for C10: capacity 4, `write_ptr = 1`, a batch of 2 writes the
cyclic range `[1, 3)`; slot 3 keeps its old `state` value. -/
theorem add_frame_outside_witness :
    (Buffer.add
      { max_size := 4, ptr := 1, size := 2,
        state := [10, 11, 12, 13], action := [20, 21, 22, 23],
        next_state := [30, 31, 32, 33], reward := [40, 41, 42, 43],
        not_done := [1, 1, 1, 1], seeds := [50, 51, 52, 53],
        prioritized := false, tree := SumTree.make 4,
        max_priority := 1, beta := 2/5 }
      [5, 6] [1, 2] [7, 8] [0, 0] [0, 0] [9, 9]).state.getD 3 0 = 13 :=
  (add_frame_outside
    { max_size := 4, ptr := 1, size := 2,
      state := [10, 11, 12, 13], action := [20, 21, 22, 23],
      next_state := [30, 31, 32, 33], reward := [40, 41, 42, 43],
      not_done := [1, 1, 1, 1], seeds := [50, 51, 52, 53],
      prioritized := false, tree := SumTree.make 4,
      max_priority := 1, beta := 2/5 }
    [5, 6] [1, 2] [7, 8] [0, 0] [0, 0] [9, 9] 3
    (by decide) (by decide) (by decide) (by decide) (by decide) (by decide)
    (by decide) (by decide) (by decide) (by decide) (by decide) (by decide)
    (by decide) (by decide) (by decide) (by decide)).1.trans (by decide)

/-- C2 (amended): the occupancy counter after an `add` is
`min(count + 1, capacity)` irrespective of the batch size: the source
increments `size` by one per call, not by the number of transitions. -/
theorem add_size_update (b : Buffer) (st ac ns rw dn sd : List ℚ) :
    (b.add st ac ns rw dn sd).size = min (b.size + 1) b.max_size := rfl

/-- C2 counterexample: adding a batch of `k = 2` to an empty capacity-4
buffer leaves occupancy 1, while the claim predicts
`min(count + k, capacity) = 2`. -/
theorem add_size_counterexample :
    (Buffer.add
      { max_size := 4, ptr := 0, size := 0,
        state := [0, 0, 0, 0], action := [0, 0, 0, 0],
        next_state := [0, 0, 0, 0], reward := [0, 0, 0, 0],
        not_done := [0, 0, 0, 0], seeds := [0, 0, 0, 0],
        prioritized := false, tree := SumTree.make 4,
        max_priority := 1, beta := 2/5 }
      [5, 6] [1, 2] [7, 8] [0, 0] [0, 0] [9, 9]).size = 1 ∧
    (1 : Nat) ≠ min (0 + 2) 4 := by
  refine ⟨rfl, by decide⟩

/-- C3: when `write_ptr + k > capacity` (with `1 ≤ k ≤ capacity`), `add`
splits the batch: row `i < capacity - write_ptr` lands in slot
`write_ptr + i`, the remaining rows land in slots `[0, end)` with
`end = (write_ptr + k) mod capacity`, and `write_ptr` becomes `end`
(first conjunct); and concretely, for capacity 5, adding batches of
sizes 3 then 4 leaves the six storage arrays holding exactly the five
most recent transitions with no index aliasing (second conjunct). -/
theorem add_wraparound_split :
    (∀ (b : Buffer) (st ac ns rw dn sd : List ℚ),
      b.ptr < b.max_size → 1 ≤ st.length → st.length ≤ b.max_size →
      b.max_size < b.ptr + st.length →
      b.state.length = b.max_size → b.action.length = b.max_size →
      b.next_state.length = b.max_size → b.reward.length = b.max_size →
      b.not_done.length = b.max_size → b.seeds.length = b.max_size →
      ac.length = st.length → ns.length = st.length → rw.length = st.length →
      dn.length = st.length → sd.length = st.length →
      (b.add st ac ns rw dn sd).ptr = (b.ptr + st.length) % b.max_size ∧
      (∀ i < b.max_size - b.ptr,
        (b.add st ac ns rw dn sd).state.getD (b.ptr + i) 0 = st.getD i 0 ∧
        (b.add st ac ns rw dn sd).action.getD (b.ptr + i) 0 = ac.getD i 0 ∧
        (b.add st ac ns rw dn sd).next_state.getD (b.ptr + i) 0 = ns.getD i 0 ∧
        (b.add st ac ns rw dn sd).reward.getD (b.ptr + i) 0 = rw.getD i 0 ∧
        (b.add st ac ns rw dn sd).not_done.getD (b.ptr + i) 0 = 1 - dn.getD i 0 ∧
        (b.add st ac ns rw dn sd).seeds.getD (b.ptr + i) 0 = sd.getD i 0) ∧
      (∀ i < (b.ptr + st.length) % b.max_size,
        (b.add st ac ns rw dn sd).state.getD i 0 =
          st.getD (b.max_size - b.ptr + i) 0 ∧
        (b.add st ac ns rw dn sd).action.getD i 0 =
          ac.getD (b.max_size - b.ptr + i) 0 ∧
        (b.add st ac ns rw dn sd).next_state.getD i 0 =
          ns.getD (b.max_size - b.ptr + i) 0 ∧
        (b.add st ac ns rw dn sd).reward.getD i 0 =
          rw.getD (b.max_size - b.ptr + i) 0 ∧
        (b.add st ac ns rw dn sd).not_done.getD i 0 =
          1 - dn.getD (b.max_size - b.ptr + i) 0 ∧
        (b.add st ac ns rw dn sd).seeds.getD i 0 =
          sd.getD (b.max_size - b.ptr + i) 0)) ∧
    ((Buffer.add (Buffer.add
      { max_size := 5, ptr := 0, size := 0,
        state := [0, 0, 0, 0, 0], action := [0, 0, 0, 0, 0],
        next_state := [0, 0, 0, 0, 0], reward := [0, 0, 0, 0, 0],
        not_done := [0, 0, 0, 0, 0], seeds := [0, 0, 0, 0, 0],
        prioritized := false, tree := SumTree.make 5,
        max_priority := 1, beta := 2/5 }
      [11, 12, 13] [21, 22, 23] [31, 32, 33] [0, 0, 1] [0, 1, 0] [41, 42, 43])
      [14, 15, 16, 17] [24, 25, 26, 27] [34, 35, 36, 37] [0, 1, 0, 0]
      [1, 0, 0, 1] [44, 45, 46, 47]).state = [16, 17, 13, 14, 15] ∧
     (Buffer.add (Buffer.add
      { max_size := 5, ptr := 0, size := 0,
        state := [0, 0, 0, 0, 0], action := [0, 0, 0, 0, 0],
        next_state := [0, 0, 0, 0, 0], reward := [0, 0, 0, 0, 0],
        not_done := [0, 0, 0, 0, 0], seeds := [0, 0, 0, 0, 0],
        prioritized := false, tree := SumTree.make 5,
        max_priority := 1, beta := 2/5 }
      [11, 12, 13] [21, 22, 23] [31, 32, 33] [0, 0, 1] [0, 1, 0] [41, 42, 43])
      [14, 15, 16, 17] [24, 25, 26, 27] [34, 35, 36, 37] [0, 1, 0, 0]
      [1, 0, 0, 1] [44, 45, 46, 47]).action = [26, 27, 23, 24, 25] ∧
     (Buffer.add (Buffer.add
      { max_size := 5, ptr := 0, size := 0,
        state := [0, 0, 0, 0, 0], action := [0, 0, 0, 0, 0],
        next_state := [0, 0, 0, 0, 0], reward := [0, 0, 0, 0, 0],
        not_done := [0, 0, 0, 0, 0], seeds := [0, 0, 0, 0, 0],
        prioritized := false, tree := SumTree.make 5,
        max_priority := 1, beta := 2/5 }
      [11, 12, 13] [21, 22, 23] [31, 32, 33] [0, 0, 1] [0, 1, 0] [41, 42, 43])
      [14, 15, 16, 17] [24, 25, 26, 27] [34, 35, 36, 37] [0, 1, 0, 0]
      [1, 0, 0, 1] [44, 45, 46, 47]).next_state = [36, 37, 33, 34, 35] ∧
     (Buffer.add (Buffer.add
      { max_size := 5, ptr := 0, size := 0,
        state := [0, 0, 0, 0, 0], action := [0, 0, 0, 0, 0],
        next_state := [0, 0, 0, 0, 0], reward := [0, 0, 0, 0, 0],
        not_done := [0, 0, 0, 0, 0], seeds := [0, 0, 0, 0, 0],
        prioritized := false, tree := SumTree.make 5,
        max_priority := 1, beta := 2/5 }
      [11, 12, 13] [21, 22, 23] [31, 32, 33] [0, 0, 1] [0, 1, 0] [41, 42, 43])
      [14, 15, 16, 17] [24, 25, 26, 27] [34, 35, 36, 37] [0, 1, 0, 0]
      [1, 0, 0, 1] [44, 45, 46, 47]).reward = [0, 0, 1, 0, 1] ∧
     (Buffer.add (Buffer.add
      { max_size := 5, ptr := 0, size := 0,
        state := [0, 0, 0, 0, 0], action := [0, 0, 0, 0, 0],
        next_state := [0, 0, 0, 0, 0], reward := [0, 0, 0, 0, 0],
        not_done := [0, 0, 0, 0, 0], seeds := [0, 0, 0, 0, 0],
        prioritized := false, tree := SumTree.make 5,
        max_priority := 1, beta := 2/5 }
      [11, 12, 13] [21, 22, 23] [31, 32, 33] [0, 0, 1] [0, 1, 0] [41, 42, 43])
      [14, 15, 16, 17] [24, 25, 26, 27] [34, 35, 36, 37] [0, 1, 0, 0]
      [1, 0, 0, 1] [44, 45, 46, 47]).not_done = [1, 0, 1, 0, 1] ∧
     (Buffer.add (Buffer.add
      { max_size := 5, ptr := 0, size := 0,
        state := [0, 0, 0, 0, 0], action := [0, 0, 0, 0, 0],
        next_state := [0, 0, 0, 0, 0], reward := [0, 0, 0, 0, 0],
        not_done := [0, 0, 0, 0, 0], seeds := [0, 0, 0, 0, 0],
        prioritized := false, tree := SumTree.make 5,
        max_priority := 1, beta := 2/5 }
      [11, 12, 13] [21, 22, 23] [31, 32, 33] [0, 0, 1] [0, 1, 0] [41, 42, 43])
      [14, 15, 16, 17] [24, 25, 26, 27] [34, 35, 36, 37] [0, 1, 0, 0]
      [1, 0, 0, 1] [44, 45, 46, 47]).seeds = [46, 47, 43, 44, 45] ∧
     (Buffer.add (Buffer.add
      { max_size := 5, ptr := 0, size := 0,
        state := [0, 0, 0, 0, 0], action := [0, 0, 0, 0, 0],
        next_state := [0, 0, 0, 0, 0], reward := [0, 0, 0, 0, 0],
        not_done := [0, 0, 0, 0, 0], seeds := [0, 0, 0, 0, 0],
        prioritized := false, tree := SumTree.make 5,
        max_priority := 1, beta := 2/5 }
      [11, 12, 13] [21, 22, 23] [31, 32, 33] [0, 0, 1] [0, 1, 0] [41, 42, 43])
      [14, 15, 16, 17] [24, 25, 26, 27] [34, 35, 36, 37] [0, 1, 0, 0]
      [1, 0, 0, 1] [44, 45, 46, 47]).ptr = 2) := by
  constructor
  · intro b st ac ns rw dn sd hp hk1 hk2 hw hs hac hns hrw hnd hsd lac lns lrw ldn lsd
    have hwgt : b.ptr + st.length > b.max_size := hw
    refine ⟨rfl, ?_, ?_⟩
    · intro i hi
      refine ⟨cyclicWrite_getD_tail _ _ _ _ _ i hp hk2 hs rfl hwgt hi,
        cyclicWrite_getD_tail _ _ _ _ _ i hp hk2 hac lac hwgt hi,
        cyclicWrite_getD_tail _ _ _ _ _ i hp hk2 hns lns hwgt hi,
        cyclicWrite_getD_tail _ _ _ _ _ i hp hk2 hrw lrw hwgt hi, ?_,
        cyclicWrite_getD_tail _ _ _ _ _ i hp hk2 hsd lsd hwgt hi⟩
      exact (cyclicWrite_getD_tail _ _ _ _ _ i hp hk2 hnd (by simpa using ldn)
        hwgt hi).trans (map_one_sub_getD dn i (by omega))
    · intro i hi
      rw [wrap_end _ _ _ hp hk2 hwgt] at hi
      have hie : i < b.ptr + st.length - b.max_size := hi
      refine ⟨?_, ?_, ?_, ?_, ?_, ?_⟩
      · exact cyclicWrite_getD_head _ _ _ _ _ i hp hk2 hs rfl hwgt hie
      · exact cyclicWrite_getD_head _ _ _ _ _ i hp hk2 hac lac hwgt hie
      · exact cyclicWrite_getD_head _ _ _ _ _ i hp hk2 hns lns hwgt hie
      · exact cyclicWrite_getD_head _ _ _ _ _ i hp hk2 hrw lrw hwgt hie
      · exact (cyclicWrite_getD_head _ _ _ _ _ i hp hk2 hnd (by simpa using ldn)
          hwgt hie).trans (map_one_sub_getD dn _ (by omega))
      · exact cyclicWrite_getD_head _ _ _ _ _ i hp hk2 hsd lsd hwgt hie
  · refine ⟨by decide, by decide, by decide, by decide, ?_, by decide, by decide⟩
    norm_num [Buffer.add, cyclicWrite, setSlice]

/-- Witness for C3's universally quantified part: capacity 5, write
pointer 3, batch of 4 wraps; the new write pointer is `(3 + 4) % 5 = 2`. -/
theorem add_wraparound_split_witness :
    (Buffer.add
      { max_size := 5, ptr := 3, size := 1,
        state := [11, 12, 13, 0, 0], action := [21, 22, 23, 0, 0],
        next_state := [31, 32, 33, 0, 0], reward := [0, 0, 1, 0, 0],
        not_done := [1, 0, 1, 0, 0], seeds := [41, 42, 43, 0, 0],
        prioritized := false, tree := SumTree.make 5,
        max_priority := 1, beta := 2/5 }
      [14, 15, 16, 17] [24, 25, 26, 27] [34, 35, 36, 37] [0, 1, 0, 0]
      [1, 0, 0, 1] [44, 45, 46, 47]).ptr = 2 :=
  (add_wraparound_split.1
    { max_size := 5, ptr := 3, size := 1,
      state := [11, 12, 13, 0, 0], action := [21, 22, 23, 0, 0],
      next_state := [31, 32, 33, 0, 0], reward := [0, 0, 1, 0, 0],
      not_done := [1, 0, 1, 0, 0], seeds := [41, 42, 43, 0, 0],
      prioritized := false, tree := SumTree.make 5,
      max_priority := 1, beta := 2/5 }
    [14, 15, 16, 17] [24, 25, 26, 27] [34, 35, 36, 37] [0, 1, 0, 0]
    [1, 0, 0, 1] [44, 45, 46, 47]
    (by decide) (by decide) (by decide) (by decide) (by decide) (by decide)
    (by decide) (by decide) (by decide) (by decide) (by decide) (by decide)
    (by decide) (by decide) (by decide)).1

/-- C1 (amended): an `add` to a prioritized buffer performs exactly one
`SumTree.set`, at the pre-call write pointer with priority
`max_priority`: that leaf becomes `max_priority`, and every other leaf
(in particular every further slot of the batch) keeps its previous
priority. -/
theorem add_priority_seed (b : Buffer) (st ac ns rw dn sd : List ℚ)
    (hpri : b.prioritized = true) (hne : b.tree.nodes ≠ [])
    (hptr : b.ptr < b.tree.leaves.length) :
    (b.add st ac ns rw dn sd).tree.leafVal b.ptr = b.max_priority ∧
    ∀ j, j ≠ b.ptr →
      (b.add st ac ns rw dn sd).tree.leafVal j = b.tree.leafVal j := by
  have htree : (b.add st ac ns rw dn sd).tree = b.tree.set b.ptr b.max_priority := by
    simp [Buffer.add, hpri]
  rw [htree]
  exact ⟨set_leafVal_self _ _ _ hne hptr,
    fun j hj => set_leafVal_ne _ _ j _ hne hj⟩

/-- Witness for C1 (amended): a prioritized capacity-4 buffer at write
pointer 0; after `add`, leaf 0 carries `max_priority = 1`. -/
theorem add_priority_seed_witness :
    (Buffer.add
      { max_size := 4, ptr := 0, size := 0,
        state := [0, 0, 0, 0], action := [0, 0, 0, 0],
        next_state := [0, 0, 0, 0], reward := [0, 0, 0, 0],
        not_done := [0, 0, 0, 0], seeds := [0, 0, 0, 0],
        prioritized := true, tree := ⟨[[0], [0, 0], [0, 0, 0, 0]]⟩,
        max_priority := 1, beta := 2/5 }
      [5] [1] [7] [0] [0] [9]).tree.leafVal 0 = 1 :=
  (add_priority_seed
    { max_size := 4, ptr := 0, size := 0,
      state := [0, 0, 0, 0], action := [0, 0, 0, 0],
      next_state := [0, 0, 0, 0], reward := [0, 0, 0, 0],
      not_done := [0, 0, 0, 0], seeds := [0, 0, 0, 0],
      prioritized := true, tree := ⟨[[0], [0, 0], [0, 0, 0, 0]]⟩,
      max_priority := 1, beta := 2/5 }
    [5] [1] [7] [0] [0] [9] (by decide) (by decide) (by decide)).1

/-- C1 counterexample: a prioritized capacity-4 buffer at write pointer
0 receives a batch of two transitions; slot 1 is newly written (its
stored state is the batch's second row) but its leaf priority stays 0,
not `max_priority = 1`: the source calls `tree.set` only for the first
slot of the batch. -/
theorem add_priority_seed_counterexample :
    (Buffer.add
      { max_size := 4, ptr := 0, size := 0,
        state := [0, 0, 0, 0], action := [0, 0, 0, 0],
        next_state := [0, 0, 0, 0], reward := [0, 0, 0, 0],
        not_done := [0, 0, 0, 0], seeds := [0, 0, 0, 0],
        prioritized := true, tree := ⟨[[0], [0, 0], [0, 0, 0, 0]]⟩,
        max_priority := 1, beta := 2/5 }
      [5, 6] [1, 2] [7, 8] [0, 0] [0, 0] [9, 9]).state.getD 1 0 = 6 ∧
    (Buffer.add
      { max_size := 4, ptr := 0, size := 0,
        state := [0, 0, 0, 0], action := [0, 0, 0, 0],
        next_state := [0, 0, 0, 0], reward := [0, 0, 0, 0],
        not_done := [0, 0, 0, 0], seeds := [0, 0, 0, 0],
        prioritized := true, tree := ⟨[[0], [0, 0], [0, 0, 0, 0]]⟩,
        max_priority := 1, beta := 2/5 }
      [5, 6] [1, 2] [7, 8] [0, 0] [0, 0] [9, 9]).tree.leafVal 1 = 0 ∧
    (Buffer.add
      { max_size := 4, ptr := 0, size := 0,
        state := [0, 0, 0, 0], action := [0, 0, 0, 0],
        next_state := [0, 0, 0, 0], reward := [0, 0, 0, 0],
        not_done := [0, 0, 0, 0], seeds := [0, 0, 0, 0],
        prioritized := true, tree := ⟨[[0], [0, 0], [0, 0, 0, 0]]⟩,
        max_priority := 1, beta := 2/5 }
      [5, 6] [1, 2] [7, 8] [0, 0] [0, 0] [9, 9]).max_priority = 1 ∧
    (0 : ℚ) ≠ 1 := by
  refine ⟨by decide, ?_, by decide, by norm_num⟩
  norm_num [Buffer.add, SumTree.set, SumTree.leafVal, SumTree.leaves,
    updFrom, addAt, cyclicWrite, setSlice]

theorem sampleBetaStep_prioritized (inc : ℚ) (b : Buffer) :
    (Buffer.sampleBetaStep inc b).prioritized = b.prioritized := by
  rw [Buffer.sampleBetaStep]
  split <;> rfl

theorem iterate_sampleBetaStep_prioritized (inc : ℚ) (N : Nat) (b : Buffer) :
    ((Buffer.sampleBetaStep inc)^[N] b).prioritized = b.prioritized := by
  induction N with
  | zero => rfl
  | succ M ih =>
    rw [Function.iterate_succ_apply', sampleBetaStep_prioritized, ih]

theorem iterate_sampleBetaStep_beta_le (inc : ℚ) (b : Buffer) (h1 : b.beta ≤ 1) :
    ∀ M : Nat, ((Buffer.sampleBetaStep inc)^[M] b).beta ≤ 1
  | 0 => h1
  | M + 1 => by
    rw [Function.iterate_succ_apply', Buffer.sampleBetaStep]
    split
    · exact min_le_right _ _
    · exact iterate_sampleBetaStep_beta_le inc b h1 M

/-- C9: for a prioritized buffer with initial `beta` in `(0, 1]` and a
per-call increment `inc > 0`, after `N` sampling calls
`beta = min(beta_0 + N * inc, 1)`, and `beta` never exceeds 1 after any
number of calls. -/
theorem beta_annealing (b : Buffer) (inc : ℚ) (N : Nat)
    (hpri : b.prioritized = true) (_h0 : 0 < b.beta) (h1 : b.beta ≤ 1)
    (hinc : 0 < inc) :
    ((Buffer.sampleBetaStep inc)^[N] b).beta = min (b.beta + (N : ℚ) * inc) 1 ∧
    ∀ M : Nat, ((Buffer.sampleBetaStep inc)^[M] b).beta ≤ 1 := by
  refine ⟨?_, iterate_sampleBetaStep_beta_le inc b h1⟩
  induction N with
  | zero =>
    simp only [Function.iterate_zero_apply, Nat.cast_zero, zero_mul, add_zero]
    exact (min_eq_left h1).symm
  | succ M ih =>
    rw [Function.iterate_succ_apply', Buffer.sampleBetaStep,
      if_pos (by rw [iterate_sampleBetaStep_prioritized]; exact hpri)]
    show min (((Buffer.sampleBetaStep inc)^[M] b).beta + inc) 1 = _
    rw [ih]
    rcases le_total (b.beta + (M : ℚ) * inc) 1 with h | h
    · rw [min_eq_left h]
      have he : b.beta + (M : ℚ) * inc + inc = b.beta + ((M : ℚ) + 1) * inc := by
        ring
      rw [he, Nat.cast_succ]
    · rw [min_eq_right h]
      have hr1 : min (1 + inc : ℚ) 1 = 1 := min_eq_right (by linarith)
      have hr2 : min (b.beta + ((M + 1 : Nat) : ℚ) * inc) 1 = 1 := by
        apply min_eq_right
        push_cast
        nlinarith
      rw [hr1, hr2]

/-- Witness for C9: `beta_0 = 0.4` and the source's hard-coded increment
`2e-7`, after two sampling calls. -/
theorem beta_annealing_witness :
    ((Buffer.sampleBetaStep (1/5000000))^[2]
      { max_size := 4, ptr := 0, size := 0,
        state := [0, 0, 0, 0], action := [0, 0, 0, 0],
        next_state := [0, 0, 0, 0], reward := [0, 0, 0, 0],
        not_done := [0, 0, 0, 0], seeds := [0, 0, 0, 0],
        prioritized := true, tree := ⟨[[0], [0, 0], [0, 0, 0, 0]]⟩,
        max_priority := 1, beta := 2/5 }).beta =
      min (2/5 + ((2 : Nat) : ℚ) * (1/5000000)) 1 :=
  (beta_annealing
    { max_size := 4, ptr := 0, size := 0,
      state := [0, 0, 0, 0], action := [0, 0, 0, 0],
      next_state := [0, 0, 0, 0], reward := [0, 0, 0, 0],
      not_done := [0, 0, 0, 0], seeds := [0, 0, 0, 0],
      prioritized := true, tree := ⟨[[0], [0, 0], [0, 0, 0, 0]]⟩,
      max_priority := 1, beta := 2/5 }
    (1/5000000) 2 rfl (by norm_num) (by norm_num) (by norm_num)).1

/-- C8 (amended): `SumTree.set` performs no contract validation.  On the
freshly built tree of capacity `m` it raises an index error exactly for
`index ≥ 2^ceil(log2 m)` — the leaf-level size, which exceeds the
capacity whenever `m` is not a power of two — and any priority,
negative values included, is accepted. -/
theorem setChecked_isSome_iff (m idx : Nat) (p : ℚ) (_hm : 1 ≤ m) :
    ((SumTree.make m).setChecked idx p).isSome = true ↔
      idx < 2 ^ Nat.clog 2 m := by
  by_cases h : idx < 2 ^ Nat.clog 2 m
  · rw [SumTree.setChecked, if_pos (by rw [make_leaves_length]; exact h)]
    simp [h]
  · rw [SumTree.setChecked, if_neg (by rw [make_leaves_length]; exact h)]
    simp [h]

/-- Witness for C8 (amended) at capacity 5 and index 7 with a negative
priority: the call succeeds since `7 < 2^3 = 8`. -/
theorem setChecked_isSome_iff_witness :
    ((SumTree.make 5).setChecked 7 (-3)).isSome = true ↔
      7 < 2 ^ Nat.clog 2 5 :=
  setChecked_isSome_iff 5 7 (-3) (by decide)

/-- C8 counterexample: on a capacity-5 tree, `set(5, 1)` does not fail
although `5` is outside `[0, 5)` (the leaf level has `2^3 = 8` slots),
and `set(0, -1)` with a negative priority does not fail either. -/
theorem setChecked_counterexample :
    ((SumTree.make 5).setChecked 5 1).isSome = true ∧ ¬ (5 < 5) ∧
    ((SumTree.make 5).setChecked 0 (-1)).isSome = true := by
  have hlen : (SumTree.make 5).leaves.length = 8 := by
    rw [make_leaves_length]
    have h : Nat.clog 2 5 = 3 := by simp [Nat.clog]
    rw [h]
    norm_num
  refine ⟨?_, by omega, ?_⟩
  · rw [SumTree.setChecked, if_pos (by rw [hlen]; omega)]
    rfl
  · rw [SumTree.setChecked, if_pos (by rw [hlen]; omega)]
    rfl

/-! ## Categorical projection (`policy.py`, `Rainbow.train`)

Per batch row the source (policy.py line 78) computes
`target_Q = reward + not_done * γ^n * pns_a` — the value shifted for
atom `i` is `pns_a[i]`, the next-state distribution's probability at
atom `i`, not the support point `z_i` — clamps it to `[V_min, V_max]`,
then takes the fractional index `b = (target_Q - V_min) / Δz`,
`low = floor(b)`, `up = ceil(b)`, then executes the two in-place masked
updates `low[(up > 0) * (low == up)] -= 1` and
`up[(low < (atoms - 1)) * (low == up)] += 1`; the second mask reads the
`low` tensor after the first update has been applied.  Probability mass
is then scatter-added: `m[low] += p * (up - b)` and `m[up] += p * (b - low)`.
`nudge` is the element-wise model of the two masked updates.
-/

def nudge (atoms : Nat) (b : ℚ) : ℤ × ℤ :=
  let low := ⌊b⌋
  let up := ⌈b⌉
  let low2 := if 0 < up ∧ low = up then low - 1 else low
  let up2 := if low2 < (atoms : ℤ) - 1 ∧ low2 = up then up + 1 else up
  (low2, up2)

/-- Modelled from the spec's words for comparison with `nudge` (claim
C5): "nudge `low -= 1` if `up > 0`, and separately nudge `up += 1` if
`low < atoms - 1`", both conditions read on the original `low`/`up`, so
both adjustments can fire on the same element. -/
def specNudge (atoms : Nat) (b : ℚ) : ℤ × ℤ :=
  let low := ⌊b⌋
  let up := ⌈b⌉
  let low2 := if 0 < up ∧ low = up then low - 1 else low
  let up2 := if low < (atoms : ℤ) - 1 ∧ low = up then up + 1 else up
  (low2, up2)

/-- C5 counterexample: at the interior integral index `b = 1` with 51
atoms, the code leaves `up = 1` (only `low` is decremented, because the
second mask re-reads the already-decremented `low`), whereas the claim's
independent double nudge would yield `up = 2`. -/
theorem nudge_counterexample :
    nudge 51 1 = (0, 1) ∧ specNudge 51 1 = (0, 2) ∧
    ((0, 1) : ℤ × ℤ) ≠ (0, 2) := by
  refine ⟨by decide, by decide, by decide⟩

/-- C5 (amended): the second conditional of the boundary nudge is
evaluated after `low` has been decremented, so the two nudges are
mutually exclusive: for an integral fractional index `b` in
`[0, atoms - 1]` with `atoms ≥ 2`, the result is `(0, 1)` when `b = 0`
(only `up` moves) and `(⌈b⌉ - 1, ⌈b⌉)` when `b > 0` (only `low` moves);
`up` is never incremented at an interior integral index. -/
theorem nudge_integral (atoms : Nat) (b : ℚ) (hatoms : 2 ≤ atoms)
    (hint : ⌊b⌋ = ⌈b⌉) (h0 : 0 ≤ b) (h1 : b ≤ (atoms : ℚ) - 1) :
    nudge atoms b = if b = 0 then (0, 1) else (⌈b⌉ - 1, ⌈b⌉) := by
  by_cases hb : b = 0
  · subst hb
    rw [if_pos rfl]
    have hA : (2 : ℤ) ≤ (atoms : ℤ) := by exact_mod_cast hatoms
    simp only [nudge, Int.floor_zero, Int.ceil_zero]
    rw [if_neg (by omega), if_pos ⟨by omega, rfl⟩]
    norm_num
  · rw [if_neg hb]
    have hbpos : 0 < b := lt_of_le_of_ne h0 (Ne.symm hb)
    have hup : 0 < ⌈b⌉ := Int.ceil_pos.mpr hbpos
    simp only [nudge, hint]
    rw [if_pos ⟨hup, trivial⟩, if_neg (by omega)]

/-- Witness for C5 (amended) at `atoms = 51`, `b = 1`. -/
theorem nudge_integral_witness :
    nudge 51 1 = if (1 : ℚ) = 0 then ((0, 1) : ℤ × ℤ)
      else (⌈(1 : ℚ)⌉ - 1, ⌈(1 : ℚ)⌉) :=
  nudge_integral 51 1 (by decide) (by decide) (by norm_num) (by norm_num)

def clampQ (x lo hi : ℚ) : ℚ := min (max x lo) hi

/-- One atom's contribution to the projected distribution: the loop body
of the scatter-add phase of `Rainbow.train`.  The shifted value for atom
`i` is `r + nd * gn * p[i]` with `p = pns_a`, exactly as in
`target_Q = reward + not_done * (gamma ** n) * pns_a` (policy.py line
78): the source shifts by the next-state distribution's entries, not by
the support.  The source performs the two `index_add_` calls vectorised
over all atoms; accumulation order does not affect the additive
scatter. -/
def projStep (atoms : Nat) (vmin vmax r gn nd : ℚ) (p : List ℚ)
    (m : List ℚ) (i : Nat) : List ℚ :=
  let tz := clampQ (r + nd * gn * p.getD i 0) vmin vmax
  let b := (tz - vmin) / ((vmax - vmin) / ((atoms : ℚ) - 1))
  addAt (addAt m (nudge atoms b).1.toNat
      (p.getD i 0 * (((nudge atoms b).2 : ℚ) - b)))
    (nudge atoms b).2.toNat (p.getD i 0 * (b - ((nudge atoms b).1 : ℚ)))

def projTarget (atoms : Nat) (vmin vmax r gn nd : ℚ) (p : List ℚ) : List ℚ :=
  (List.range atoms).foldl (projStep atoms vmin vmax r gn nd p)
    (List.replicate atoms 0)

theorem nudge_bounds (atoms : Nat) (b : ℚ) (hatoms : 2 ≤ atoms)
    (h0 : 0 ≤ b) (h1 : b ≤ (atoms : ℚ) - 1) :
    (nudge atoms b).2 = (nudge atoms b).1 + 1 ∧
    0 ≤ (nudge atoms b).1 ∧ (nudge atoms b).2 ≤ (atoms : ℤ) - 1 := by
  have hA : (2 : ℤ) ≤ (atoms : ℤ) := by exact_mod_cast hatoms
  have hfl0 : 0 ≤ ⌊b⌋ := Int.floor_nonneg.mpr h0
  have hclA : ⌈b⌉ ≤ (atoms : ℤ) - 1 := by
    apply Int.ceil_le.mpr
    push_cast
    exact h1
  have hfc : ⌊b⌋ ≤ ⌈b⌉ := Int.floor_le_ceil b
  have hcf : ⌈b⌉ ≤ ⌊b⌋ + 1 := Int.ceil_le_floor_add_one b
  by_cases hc1 : 0 < ⌈b⌉ ∧ ⌊b⌋ = ⌈b⌉
  · have hval : nudge atoms b = (⌊b⌋ - 1, ⌈b⌉) := by
      simp only [nudge]
      rw [if_pos hc1, if_neg (by omega)]
    rw [hval]
    exact ⟨by omega, by omega, hclA⟩
  · by_cases hc2 : ⌊b⌋ < (atoms : ℤ) - 1 ∧ ⌊b⌋ = ⌈b⌉
    · have hval : nudge atoms b = (⌊b⌋, ⌈b⌉ + 1) := by
        simp only [nudge]
        rw [if_neg hc1, if_pos hc2]
      rw [hval]
      exact ⟨by omega, hfl0, by omega⟩
    · have hval : nudge atoms b = (⌊b⌋, ⌈b⌉) := by
        simp only [nudge]
        rw [if_neg hc1, if_neg hc2]
      rw [hval]
      exact ⟨by omega, hfl0, hclA⟩

theorem clamped_b_bounds (atoms : Nat) (vmin vmax v : ℚ)
    (hatoms : 2 ≤ atoms) (hvv : vmin < vmax) :
    0 ≤ (clampQ v vmin vmax - vmin) / ((vmax - vmin) / ((atoms : ℚ) - 1)) ∧
    (clampQ v vmin vmax - vmin) / ((vmax - vmin) / ((atoms : ℚ) - 1)) ≤
      (atoms : ℚ) - 1 := by
  have hA : (2 : ℚ) ≤ (atoms : ℚ) := by exact_mod_cast hatoms
  have hdz : 0 < (vmax - vmin) / ((atoms : ℚ) - 1) :=
    div_pos (by linarith) (by linarith)
  constructor
  · apply div_nonneg _ (le_of_lt hdz)
    have hlo : vmin ≤ clampQ v vmin vmax :=
      le_min (le_max_right v vmin) (le_of_lt hvv)
    linarith
  · rw [div_le_iff₀ hdz]
    have hne : ((atoms : ℚ) - 1) ≠ 0 := by linarith
    have hdz2 : ((atoms : ℚ) - 1) * ((vmax - vmin) / ((atoms : ℚ) - 1)) =
        vmax - vmin := by
      rw [mul_comm, div_mul_eq_mul_div, mul_div_assoc, div_self hne, mul_one]
    rw [hdz2]
    have htz : clampQ v vmin vmax ≤ vmax := min_le_right _ _
    linarith

theorem projStep_sum (atoms : Nat) (vmin vmax r gn nd : ℚ) (p : List ℚ)
    (m : List ℚ) (i : Nat) (hatoms : 2 ≤ atoms) (hvv : vmin < vmax)
    (hm : m.length = atoms) :
    (projStep atoms vmin vmax r gn nd p m i).sum = m.sum + p.getD i 0 ∧
    (projStep atoms vmin vmax r gn nd p m i).length = atoms := by
  have hb := clamped_b_bounds atoms vmin vmax
    (r + nd * gn * p.getD i 0) hatoms hvv
  have hn := nudge_bounds atoms _ hatoms hb.1 hb.2
  have hlo : (nudge atoms ((clampQ (r + nd * gn * p.getD i 0)
      vmin vmax - vmin) / ((vmax - vmin) / ((atoms : ℚ) - 1)))).1.toNat < m.length := by
    rw [hm]
    omega
  have hup : (nudge atoms ((clampQ (r + nd * gn * p.getD i 0)
      vmin vmax - vmin) / ((vmax - vmin) / ((atoms : ℚ) - 1)))).2.toNat < m.length := by
    rw [hm]
    omega
  constructor
  · simp only [projStep]
    rw [addAt_sum _ _ _ (by rw [addAt_length]; exact hup),
      addAt_sum _ _ _ hlo]
    have hcast : ((nudge atoms ((clampQ (r + nd * gn * p.getD i 0)
        vmin vmax - vmin) / ((vmax - vmin) / ((atoms : ℚ) - 1)))).2 : ℚ) =
        ((nudge atoms ((clampQ (r + nd * gn * p.getD i 0)
        vmin vmax - vmin) / ((vmax - vmin) / ((atoms : ℚ) - 1)))).1 : ℚ) + 1 := by
      rw [hn.1]
      push_cast
      ring
    rw [hcast]
    ring
  · simp only [projStep]
    rw [addAt_length, addAt_length]
    exact hm

theorem projFold_sum (atoms : Nat) (vmin vmax r gn nd : ℚ) (p : List ℚ)
    (hatoms : 2 ≤ atoms) (hvv : vmin < vmax) :
    ∀ (l : List Nat) (m : List ℚ), m.length = atoms →
    (l.foldl (projStep atoms vmin vmax r gn nd p) m).sum =
        m.sum + (l.map (fun i => p.getD i 0)).sum ∧
    (l.foldl (projStep atoms vmin vmax r gn nd p) m).length = atoms := by
  intro l
  induction l with
  | nil =>
    intro m hm
    simpa using hm
  | cons i l ih =>
    intro m hm
    rw [List.foldl_cons]
    obtain ⟨hs, hl⟩ := projStep_sum atoms vmin vmax r gn nd p m i hatoms hvv hm
    obtain ⟨ihs, ihl⟩ := ih _ hl
    refine ⟨?_, ihl⟩
    rw [ihs, hs, List.map_cons, List.sum_cons]
    ring

theorem sum_range_getD (p : List ℚ) :
    ((List.range p.length).map (fun i => p.getD i 0)).sum = p.sum := by
  induction p with
  | nil => simp
  | cons x xs ih =>
    rw [List.length_cons, List.range_succ_eq_map, List.map_cons, List.map_map]
    have hfun : ((fun i => (x :: xs).getD i 0) ∘ Nat.succ) =
        fun i => xs.getD i 0 := by
      funext i
      simp [List.getD_cons_succ]
    rw [hfun, List.sum_cons, ih, List.getD_cons_zero, List.sum_cons]

/-- C7: for every input distribution over `atoms ≥ 2` support points
summing to 1, and any reward, discount factor and continuation value,
the projected target distribution sums to exactly 1 (the embedding
computes in exact rational arithmetic).  The conservation argument does
not depend on which quantity is shifted: after clamping, every
fractional index lies in `[0, atoms - 1]`, the nudged pair satisfies
`up = low + 1` within bounds, and atom `i` contributes
`p_i * (up - b) + p_i * (b - low) = p_i` — so it holds for the source's
shift by the next-state distribution's entries. -/
theorem projection_mass_conservation (atoms : Nat) (vmin vmax r gn nd : ℚ)
    (p : List ℚ) (hatoms : 2 ≤ atoms) (hvv : vmin < vmax)
    (hplen : p.length = atoms) (hpsum : p.sum = 1) :
    (projTarget atoms vmin vmax r gn nd p).sum = 1 := by
  obtain ⟨hs, _⟩ := projFold_sum atoms vmin vmax r gn nd p hatoms hvv
    (List.range atoms) (List.replicate atoms 0) (by simp)
  rw [projTarget, hs, ← hplen, sum_range_getD, hpsum]
  simp

/-- Witness for C7: three atoms on `[-10, 10]`, reward 0, discount
`0.99`, continuation 1, input distribution `[1/2, 1/3, 1/6]`. -/
theorem projection_mass_conservation_witness :
    (projTarget 3 (-10) 10 0 (99/100) 1 [1/2, 1/3, 1/6]).sum = 1 :=
  projection_mass_conservation 3 (-10) 10 0 (99/100) 1 [1/2, 1/3, 1/6]
    (by decide) (by norm_num) (by decide) (by norm_num)

/-! ## Importance weights (`buffer.py`, `Buffer.sample`, prioritized branch)

The source computes `weights = self.tree.nodes[-1][ind] ** -self.beta`
and then `weights /= weights.max()`.  The real exponent `-beta` forces
this part of the embedding onto the reals (sum-tree priorities, stored
as rationals, are cast into `ℝ`). -/

/-- `np.max` of an array (`weights.max()`); 0 on the empty array, which
the source never queries. -/
noncomputable def maxA : List ℝ → ℝ
  | [] => 0
  | x :: xs => xs.foldl max x

/-- `weights = priorities ** -beta`. -/
noncomputable def rawWeights (β : ℝ) (ps : List ℝ) : List ℝ :=
  ps.map fun q => q ^ (-β)

/-- `weights /= weights.max()`. -/
noncomputable def perWeights (β : ℝ) (ps : List ℝ) : List ℝ :=
  (rawWeights β ps).map fun w => w / maxA (rawWeights β ps)

/-- The importance weights of one prioritized `sample` call, as computed
by the source for sampled indices `ind`: leaf priorities raised to
`-beta`, normalised by the batch maximum. -/
noncomputable def sampleWeights (t : SumTree) (β : ℝ) (ind : List Nat) : List ℝ :=
  perWeights β (ind.map fun i => ((t.leafVal i : ℚ) : ℝ))

/-- Modelled from the spec for comparison (claim C6): weight
`(leaf_priority / total)^(-beta)`, then divided by the batch maximum. -/
noncomputable def rawSpecWeights (β T : ℝ) (ps : List ℝ) : List ℝ :=
  ps.map fun q => (q / T) ^ (-β)

/-- Modelled from the spec for comparison (claim C6): the normalised
spec-side weights. -/
noncomputable def specWeights (β T : ℝ) (ps : List ℝ) : List ℝ :=
  (rawSpecWeights β T ps).map fun w => w / maxA (rawSpecWeights β T ps)

theorem le_foldl_max (xs : List ℝ) (x : ℝ) : x ≤ xs.foldl max x := by
  induction xs generalizing x with
  | nil => exact le_refl x
  | cons y ys ih => exact le_trans (le_max_left x y) (ih (max x y))

theorem le_foldl_max_of_mem (xs : List ℝ) (x w : ℝ) (h : w ∈ xs) :
    w ≤ xs.foldl max x := by
  induction xs generalizing x with
  | nil => simp at h
  | cons y ys ih =>
    rcases List.mem_cons.mp h with h1 | h2
    · subst h1
      exact le_trans (le_max_right x w) (le_foldl_max ys (max x w))
    · exact ih (max x y) h2

theorem foldl_max_mem (xs : List ℝ) (x : ℝ) : xs.foldl max x ∈ x :: xs := by
  induction xs generalizing x with
  | nil => simp
  | cons y ys ih =>
    have h := ih (max x y)
    rcases List.mem_cons.mp h with h1 | h2
    · rcases max_choice x y with hx | hy
      · rw [List.foldl_cons, h1, hx]
        exact List.mem_cons_self _ _
      · rw [List.foldl_cons, h1, hy]
        simp
    · rw [List.foldl_cons]
      exact List.mem_cons_of_mem _ (List.mem_cons_of_mem _ h2)

theorem le_maxA (l : List ℝ) (w : ℝ) (h : w ∈ l) : w ≤ maxA l := by
  cases l with
  | nil => simp at h
  | cons x xs =>
    rcases List.mem_cons.mp h with h1 | h2
    · subst h1
      exact le_foldl_max xs w
    · exact le_foldl_max_of_mem xs x w h2

theorem maxA_mem (l : List ℝ) (h : l ≠ []) : maxA l ∈ l := by
  cases l with
  | nil => exact absurd rfl h
  | cons x xs => exact foldl_max_mem xs x

theorem foldl_max_map_mul (c : ℝ) (hc : 0 ≤ c) (xs : List ℝ) (x : ℝ) :
    (xs.map fun y => c * y).foldl max (c * x) = c * xs.foldl max x := by
  induction xs generalizing x with
  | nil => rfl
  | cons y ys ih =>
    rw [List.map_cons, List.foldl_cons, List.foldl_cons,
      ← mul_max_of_nonneg _ _ hc, ih (max x y)]

theorem maxA_map_mul (c : ℝ) (hc : 0 ≤ c) (l : List ℝ) :
    maxA (l.map fun y => c * y) = c * maxA l := by
  cases l with
  | nil => simp [maxA]
  | cons x xs => exact foldl_max_map_mul c hc xs x

/-- C6: when every sampled leaf priority is strictly positive (and the
root total is positive), the importance weights computed by the source —
`leaf^(-beta)` divided by the batch maximum — coincide elementwise with
the spec's `(leaf/total)^(-beta)` divided by the batch maximum
(normalisation cancels the `total^beta` factor); consequently the
maximum returned weight is exactly 1 and every returned weight is
strictly positive. -/
theorem importance_weights (t : SumTree) (β : ℝ) (ind : List Nat)
    (hne : ind ≠ []) (hpos : ∀ i ∈ ind, 0 < t.leafVal i)
    (htot : 0 < t.total) :
    sampleWeights t β ind =
      specWeights β ((t.total : ℚ) : ℝ)
        (ind.map fun i => ((t.leafVal i : ℚ) : ℝ)) ∧
    maxA (sampleWeights t β ind) = 1 ∧
    ∀ w ∈ sampleWeights t β ind, 0 < w := by
  have hpne : (ind.map fun i => ((t.leafVal i : ℚ) : ℝ)) ≠ [] := by
    simpa using hne
  have hps : ∀ q ∈ (ind.map fun i => ((t.leafVal i : ℚ) : ℝ)), 0 < q := by
    intro q hq
    rcases List.mem_map.mp hq with ⟨i, hi, rfl⟩
    exact_mod_cast hpos i hi
  have hT : (0 : ℝ) < ((t.total : ℚ) : ℝ) := by exact_mod_cast htot
  have hc : (0 : ℝ) < ((t.total : ℚ) : ℝ) ^ β := Real.rpow_pos_of_pos hT β
  have h1 : rawSpecWeights β ((t.total : ℚ) : ℝ)
        (ind.map fun i => ((t.leafVal i : ℚ) : ℝ)) =
      (rawWeights β (ind.map fun i => ((t.leafVal i : ℚ) : ℝ))).map
        (fun w => ((t.total : ℚ) : ℝ) ^ β * w) := by
    rw [rawSpecWeights, rawWeights]
    simp only [List.map_map]
    apply List.map_congr_left
    intro i hi
    have hq0 : (0 : ℝ) ≤ ((t.leafVal i : ℚ) : ℝ) := by
      have := hpos i hi
      positivity
    show (((t.leafVal i : ℚ) : ℝ) / _) ^ (-β) = _
    rw [Real.div_rpow hq0 (le_of_lt hT), Real.rpow_neg (le_of_lt hT) β,
      div_eq_mul_inv, inv_inv]
    exact mul_comm _ _
  have hraw_ne : rawWeights β (ind.map fun i => ((t.leafVal i : ℚ) : ℝ)) ≠ [] := by
    rw [rawWeights]
    simpa using hne
  have hraw_pos : ∀ w ∈ rawWeights β (ind.map fun i => ((t.leafVal i : ℚ) : ℝ)),
      0 < w := by
    intro w hw
    rcases List.mem_map.mp hw with ⟨q, hq, rfl⟩
    exact Real.rpow_pos_of_pos (hps q hq) _
  have hMpos : 0 < maxA (rawWeights β (ind.map fun i => ((t.leafVal i : ℚ) : ℝ))) :=
    hraw_pos _ (maxA_mem _ hraw_ne)
  have h2 : specWeights β ((t.total : ℚ) : ℝ)
        (ind.map fun i => ((t.leafVal i : ℚ) : ℝ)) =
      perWeights β (ind.map fun i => ((t.leafVal i : ℚ) : ℝ)) := by
    rw [specWeights, h1, maxA_map_mul _ (le_of_lt hc), List.map_map, perWeights]
    apply List.map_congr_left
    intro w _
    show ((t.total : ℚ) : ℝ) ^ β * w / (((t.total : ℚ) : ℝ) ^ β * _) = _
    rw [mul_div_mul_left _ _ (ne_of_gt hc)]
  refine ⟨h2.symm, ?_, ?_⟩
  · show maxA ((rawWeights β (ind.map fun i => ((t.leafVal i : ℚ) : ℝ))).map
      (fun w => w / maxA (rawWeights β (ind.map fun i => ((t.leafVal i : ℚ) : ℝ))))) = 1
    have hdiv : (fun w => w / maxA (rawWeights β
        (ind.map fun i => ((t.leafVal i : ℚ) : ℝ)))) =
        fun w => (maxA (rawWeights β (ind.map fun i => ((t.leafVal i : ℚ) : ℝ))))⁻¹ * w := by
      funext w
      rw [div_eq_inv_mul]
    rw [hdiv, maxA_map_mul _ (inv_nonneg.mpr (le_of_lt hMpos)),
      inv_mul_cancel₀ (ne_of_gt hMpos)]
  · intro w hw
    rcases List.mem_map.mp hw with ⟨r, hr, rfl⟩
    exact div_pos (hraw_pos r hr) hMpos

/-- Witness for C6: the two-leaf tree with node levels `[3]`, `[2, 1]`,
`beta = 0.4`, sampled indices `[0, 1]`; the normalised batch maximum is
exactly 1. -/
theorem importance_weights_witness :
    maxA (sampleWeights ⟨[[3], [2, 1]]⟩ (2/5) [0, 1]) = 1 :=
  (importance_weights ⟨[[3], [2, 1]]⟩ (2/5) [0, 1]
    (by decide) (by decide) (by decide)).2.1

end Replay
